import Mathlib

/-
Verification of the scene module (src/scene.rs) of a minimal 2D sprite
engine: entity/component store (World), physics integration with boundary
bouncing, frame animation advance, and memoized parent-child transform
resolution.

Modelling conventions:
- f32 scalars are modelled as rationals (all inputs appearing in the
  claims are exactly representable and the operations on them are exact,
  so rational arithmetic coincides with f32 on those inputs; float
  rounding is out of scope).
- cos/sin are abstracted into a Trig structure of two functions; the
  rotation claims only constrain the composition formula, not the
  trigonometry itself.
- Vec (Rust std::vec::Vec) becomes List; indexed reads use List.getD
  with a none default, indexed writes use List.set.
- The recursive memoized resolver compute_world takes an explicit fuel
  parameter (the Rust recursion is unbounded and diverges on multi-hop
  parent cycles, which the spec itself calls undefined); fuel
  number-of-entities + 1 suffices on acyclic hierarchies, and claim C9
  states the stabilization result.
-/

/-- Planar vector of rationals, modelling glam::Vec2. -/
structure Vec2 where
  x : ℚ
  y : ℚ
deriving DecidableEq

/-- Component-wise addition of 2D vectors. -/
def Vec2.add (a b : Vec2) : Vec2 := ⟨a.x + b.x, a.y + b.y⟩

/-- Component-wise multiplication of 2D vectors (glam Vec2 * Vec2). -/
def Vec2.cmul (a b : Vec2) : Vec2 := ⟨a.x * b.x, a.y * b.y⟩

/-- Scalar multiplication of a 2D vector (glam Vec2 * f32). -/
def Vec2.smul (a : Vec2) (k : ℚ) : Vec2 := ⟨a.x * k, a.y * k⟩

/-- Abstract cosine/sine pair standing in for f32::cos and f32::sin. -/
structure Trig where
  cos : ℚ → ℚ
  sin : ℚ → ℚ

/-- Local transform component: position, rotation (radians), scale. -/
structure Transform where
  position : Vec2
  rotation : ℚ
  scale : Vec2
deriving DecidableEq

/-- Transform::new -/
def Transform.new (position : Vec2) : Transform :=
  { position := position, rotation := 0, scale := ⟨1, 1⟩ }

/-- Physics body component: velocity, damping, bounce. -/
structure Body where
  velocity : Vec2
  damping : ℚ
  bounce : ℚ
deriving DecidableEq

/-- Body::new -/
def Body.new (velocity : Vec2) : Body :=
  { velocity := velocity, damping := 2/5, bounce := 3/4 }

/-- Frame-cycling animation state machine. -/
structure Animation where
  frames : List ℕ
  fps : ℚ
  timer : ℚ
  current : ℕ
deriving DecidableEq

/-- Animation::new -/
def Animation.new (frames : List ℕ) (fps : ℚ) : Animation :=
  { frames := frames, fps := fps, timer := 0, current := 0 }

/-- The while loop of Animation::update: while timer is at least
frame_time, subtract frame_time and advance current cyclically.
The positivity hypothesis on frame_time (established by the caller,
since fps is positive there) makes the loop terminate. -/
def animLoop (ft : ℚ) (hft : 0 < ft) (timer : ℚ) (current len : ℕ) : ℚ × ℕ :=
  if h : ft ≤ timer then
    animLoop ft hft (timer - ft) ((current + 1) % len) len
  else
    (timer, current)
termination_by (⌊timer / ft⌋).toNat
decreasing_by
  have hne : ft ≠ 0 := ne_of_gt hft
  have h1 : (timer - ft) / ft = timer / ft - 1 := by
    rw [sub_div, div_self hne]
  have h2 : (1 : ℚ) ≤ timer / ft := (one_le_div hft).mpr h
  have h3 : (1 : ℤ) ≤ ⌊timer / ft⌋ := by
    rw [Int.le_floor]
    exact_mod_cast h2
  have h4 : ⌊(timer - ft) / ft⌋ = ⌊timer / ft⌋ - 1 := by
    rw [h1]
    rw [show (1 : ℚ) = ((1 : ℤ) : ℚ) by norm_num, Int.floor_sub_int]
  simp only [h4]
  omega

/-- Animation::update: returns the updated animation state paired with
the optional emitted frame (None when frames is empty or fps is not
positive). -/
def Animation.update (a : Animation) (dt : ℚ) : Animation × Option ℕ :=
  if h : a.frames.isEmpty ∨ a.fps ≤ 0 then (a, none)
  else
    have hfps : 0 < a.fps := lt_of_not_le fun hle => h (Or.inr hle)
    let ft := 1 / a.fps
    let p := animLoop ft (by positivity) (a.timer + dt) a.current a.frames.length
    ({ a with timer := p.1, current := p.2 }, some (a.frames.getD p.2 0))

/-- Sprite component: size, atlas tile index, color, spin, optional
owned animation. -/
structure Sprite where
  size : Vec2
  tile_index : ℕ
  color : ℚ × ℚ × ℚ × ℚ
  spin : ℚ
  animation : Option Animation
deriving DecidableEq

/-- The entity store: parallel slot arrays keyed by a dense index, plus
a free list of recycled handles. -/
@[ext]
structure World where
  transforms : List (Option Transform)
  sprites : List (Option Sprite)
  bodies : List (Option Body)
  parents : List (Option ℕ)
  world_cache : List (Option Transform)
  free : List ℕ
deriving DecidableEq

/-- World::new -/
def World.new : World :=
  { transforms := [], sprites := [], bodies := [], parents := [],
    world_cache := [], free := [] }

/-- World::push_new: append a fresh slot to every parallel array and
return its index. -/
def World.push_new (w : World) (t : Transform) (s : Sprite) (b : Option Body) :
    World × ℕ :=
  ({ transforms := w.transforms ++ [some t],
     sprites := w.sprites ++ [some s],
     bodies := w.bodies ++ [b],
     parents := w.parents ++ [none],
     world_cache := w.world_cache ++ [none],
     free := w.free }, w.transforms.length)

/-- World::spawn_sprite_with_body: pop the free list (Vec::pop takes the
last element) and overwrite that slot when the popped handle is in
range, otherwise append a new slot. -/
def World.spawn_sprite_with_body (w : World) (t : Transform) (s : Sprite)
    (b : Option Body) : World × ℕ :=
  match w.free.getLast? with
  | some entity =>
    let w1 : World := { w with free := w.free.dropLast }
    if w1.transforms.length ≤ entity then
      w1.push_new t s b
    else
      ({ w1 with
          transforms := w1.transforms.set entity (some t),
          sprites := w1.sprites.set entity (some s),
          bodies := w1.bodies.set entity b,
          parents := w1.parents.set entity none,
          world_cache := w1.world_cache.set entity none }, entity)
  | none => w.push_new t s b

/-- World::spawn_sprite -/
def World.spawn_sprite (w : World) (t : Transform) (s : Sprite) : World × ℕ :=
  w.spawn_sprite_with_body t s none

/-- World::set_parent: no-op when the child is out of range; otherwise
store the link and invalidate only the child's cache entry. -/
def World.set_parent (w : World) (child parent : ℕ) : World :=
  if w.parents.length ≤ child then w
  else
    { w with parents := w.parents.set child (some parent),
             world_cache := w.world_cache.set child none }

/-- Net effect of World::get_transform_mut followed by a caller write:
replace the transform at a live slot, otherwise no change. -/
def World.mutate_transform (w : World) (e : ℕ) (t : Transform) : World :=
  if (w.transforms.getD e none).isSome then
    { w with transforms := w.transforms.set e (some t) }
  else w

/-- Net effect of World::get_sprite_mut followed by a caller write. -/
def World.mutate_sprite (w : World) (e : ℕ) (s : Sprite) : World :=
  if (w.sprites.getD e none).isSome then
    { w with sprites := w.sprites.set e (some s) }
  else w

/-- f32::clamp(lo, hi). -/
def clampQ (x lo hi : ℚ) : ℚ :=
  if x < lo then lo else if x > hi then hi else x

/-- Per-slot physics step of World::step_physics: damping, Euler
integration, then independent x/y boundary clamping with inward
redirect scaled by bounce. -/
def stepSlot (dt : ℚ) (bounds : Vec2) (t : Transform) (b : Body) :
    Transform × Body :=
  let damping := clampQ (1 - b.damping * dt) 0 1
  let v1 := b.velocity.smul damping
  let p1 := t.position.add (v1.smul dt)
  let xr : ℚ × ℚ :=
    if p1.x < -bounds.x then (-bounds.x, |v1.x| * b.bounce)
    else if p1.x > bounds.x then (bounds.x, -|v1.x| * b.bounce)
    else (p1.x, v1.x)
  let yr : ℚ × ℚ :=
    if p1.y < -bounds.y then (-bounds.y, |v1.y| * b.bounce)
    else if p1.y > bounds.y then (bounds.y, -|v1.y| * b.bounce)
    else (p1.y, v1.y)
  ({ t with position := ⟨xr.1, yr.1⟩ }, { b with velocity := ⟨xr.2, yr.2⟩ })

/-- Loop body of World::step_physics at one index. -/
def physStep (dt : ℚ) (bounds : Vec2) (acc : World) (index : ℕ) : World :=
  match acc.transforms.getD index none, acc.bodies.getD index none with
  | some t, some b =>
    let r := stepSlot dt bounds t b
    { acc with transforms := acc.transforms.set index (some r.1),
               bodies := acc.bodies.set index (some r.2) }
  | _, _ => acc

/-- World::step_physics: iterate all indices in ascending order and step
every slot that has both a Transform and a Body. -/
def World.step_physics (w : World) (dt : ℚ) (bounds : Vec2) : World :=
  (List.range w.transforms.length).foldl (physStep dt bounds) w

/-- Per-slot animation step of World::update_animations: advance the
owned animation (writing the emitted frame into tile_index when one is
produced), then apply spin to the local rotation. -/
def animSlot (dt : ℚ) (t : Transform) (s : Sprite) : Transform × Sprite :=
  let s1 :=
    match s.animation with
    | some a =>
      let r := Animation.update a dt
      let s2 := { s with animation := some r.1 }
      match r.2 with
      | some frame => { s2 with tile_index := frame }
      | none => s2
    | none => s
  ({ t with rotation := t.rotation + s1.spin * dt }, s1)

/-- Loop body of World::update_animations at one index. -/
def animStep (dt : ℚ) (acc : World) (index : ℕ) : World :=
  match acc.transforms.getD index none, acc.sprites.getD index none with
  | some t, some s =>
    let r := animSlot dt t s
    { acc with transforms := acc.transforms.set index (some r.1),
               sprites := acc.sprites.set index (some r.2) }
  | _, _ => acc

/-- World::update_animations: iterate all indices in ascending order and
update every slot that has both a Transform and a Sprite. -/
def World.update_animations (w : World) (dt : ℚ) : World :=
  (List.range w.transforms.length).foldl (animStep dt) w

/-- rotate_vec2: standard 2D rotation by an angle, through the abstract
cos/sin pair. -/
def rotate_vec2 (trig : Trig) (value : Vec2) (angle : ℚ) : Vec2 :=
  let c := trig.cos angle
  let s := trig.sin angle
  ⟨value.x * c - value.y * s, value.x * s + value.y * c⟩

/-- combine_transforms: compose a parent world transform with a local
transform. -/
def combine_transforms (trig : Trig) (parent local_ : Transform) : Transform :=
  let scaled := local_.position.cmul parent.scale
  let rotated := rotate_vec2 trig scaled parent.rotation
  { position := parent.position.add rotated,
    rotation := parent.rotation + local_.rotation,
    scale := parent.scale.cmul local_.scale }

/-- Write a computed world transform into the cache slot of an index. -/
def cacheStore (w : World) (index : ℕ) (t : Transform) : World :=
  { w with world_cache := w.world_cache.set index (some t) }

/-- World::compute_world with an explicit fuel bound on recursion depth
(the Rust recursion is unbounded; fuel exhaustion returns none, which
only multi-hop parent cycles can reach, a case the spec itself declares
undefined). Returns the updated store (memoized cache) and the optional
resolved world transform. -/
def computeWorldF (trig : Trig) : ℕ → World → ℕ → World × Option Transform
  | 0, w, _ => (w, none)
  | fuel + 1, w, index =>
    if w.transforms.length ≤ index then (w, none)
    else
      match w.world_cache.getD index none with
      | some cached => (w, some cached)
      | none =>
        match w.transforms.getD index none with
        | none => (w, none)
        | some localT =>
          match w.parents.getD index none with
          | none => (cacheStore w index localT, some localT)
          | some parent =>
            if parent = index then (cacheStore w index localT, some localT)
            else
              match computeWorldF trig fuel w parent with
              | (w1, some parentWorld) =>
                let worldT := combine_transforms trig parentWorld localT
                (cacheStore w1 index worldT, some worldT)
              | (w1, none) => (cacheStore w1 index localT, some localT)

/-- One top-level resolution call of build_world_transforms. -/
def resolveStep (trig : Trig) (acc : World) (index : ℕ) : World :=
  (computeWorldF trig (acc.transforms.length + 1) acc index).1

/-- World::build_world_transforms: clear the whole cache, then resolve
every index in ascending order. Fuel number-of-entities + 1 covers any
acyclic parent chain. -/
def World.build_world_transforms (trig : Trig) (w : World) : World :=
  let w0 : World := { w with world_cache := w.world_cache.map (fun _ => none) }
  (List.range w0.transforms.length).foldl (resolveStep trig) w0

/-- World::for_each_sprite_world: rebuild the world-transform cache,
then visit, in ascending index order, every slot with both a cached
world transform and a Sprite. The visit list stands for the sequence of
visitor invocations. -/
def World.for_each_sprite_world (trig : Trig) (w : World) :
    World × List (ℕ × Transform × Sprite) :=
  let w1 := w.build_world_transforms trig
  (w1, (List.range w1.transforms.length).filterMap (fun index =>
    match w1.world_cache.getD index none, w1.sprites.getD index none with
    | some worldT, some s => some (index, worldT, s)
    | _, _ => none))

/-- The implicit parallel-array invariant: all five slot arrays have
equal length. -/
def World.wellFormed (w : World) : Prop :=
  w.sprites.length = w.transforms.length ∧
  w.bodies.length = w.transforms.length ∧
  w.parents.length = w.transforms.length ∧
  w.world_cache.length = w.transforms.length

instance (w : World) : Decidable w.wellFormed := by
  unfold World.wellFormed; infer_instance

/-- Worlds reachable from World::new through the public operations. -/
inductive Reachable : World → Prop
  | new : Reachable World.new
  | spawn_sprite (w : World) (t : Transform) (s : Sprite) :
      Reachable w → Reachable (w.spawn_sprite t s).1
  | spawn_sprite_with_body (w : World) (t : Transform) (s : Sprite)
      (b : Option Body) :
      Reachable w → Reachable (w.spawn_sprite_with_body t s b).1
  | set_parent (w : World) (c p : ℕ) :
      Reachable w → Reachable (w.set_parent c p)
  | mutate_transform (w : World) (e : ℕ) (t : Transform) :
      Reachable w → Reachable (w.mutate_transform e t)
  | mutate_sprite (w : World) (e : ℕ) (s : Sprite) :
      Reachable w → Reachable (w.mutate_sprite e s)
  | step_physics (w : World) (dt : ℚ) (bounds : Vec2) :
      Reachable w → Reachable (w.step_physics dt bounds)
  | update_animations (w : World) (dt : ℚ) :
      Reachable w → Reachable (w.update_animations dt)
  | for_each_sprite_world (trig : Trig) (w : World) :
      Reachable w → Reachable (w.for_each_sprite_world trig).1

/-! ### List helper lemmas -/

lemma getD_set_self {α : Type} : ∀ (l : List α) (i : ℕ) (a d : α),
    i < l.length → (l.set i a).getD i d = a := by
  intro l
  induction l with
  | nil => intro i a d h; simp at h
  | cons x xs ih =>
    intro i a d h
    cases i with
    | zero => rfl
    | succ j =>
      simp only [List.set, List.getD, List.getElem?_cons_succ]
      have := ih j a d (by simp at h; omega)
      simpa [List.getD] using this

lemma getD_set_ne {α : Type} : ∀ (l : List α) (i j : ℕ) (a d : α),
    i ≠ j → (l.set i a).getD j d = l.getD j d := by
  intro l
  induction l with
  | nil => intro i j a d h; rfl
  | cons x xs ih =>
    intro i j a d h
    cases i with
    | zero =>
      cases j with
      | zero => exact absurd rfl h
      | succ k => rfl
    | succ i1 =>
      cases j with
      | zero => rfl
      | succ k =>
        simp only [List.set, List.getD, List.getElem?_cons_succ]
        have := ih i1 k a d (fun hc => h (by rw [hc]))
        simpa [List.getD] using this

lemma getD_of_length_le {α : Type} : ∀ (l : List α) (i : ℕ) (d : α),
    l.length ≤ i → l.getD i d = d := by
  intro l i d h
  simp [List.getD, List.getElem?_eq_none h]

lemma lt_length_of_getD_some {α : Type} (l : List (Option α)) (i : ℕ) (c : α)
    (h : l.getD i none = some c) : i < l.length := by
  by_contra hnot
  rw [getD_of_length_le l i none (le_of_not_lt hnot)] at h
  exact Option.noConfusion h

lemma getD_map_const_none {α β : Type} (l : List α) (i : ℕ) :
    (l.map (fun _ => (none : Option β))).getD i none = none := by
  induction l generalizing i with
  | nil => rfl
  | cons x xs ih =>
    cases i with
    | zero => rfl
    | succ j =>
      have := ih j
      simp only [List.getD, List.map_cons, List.getElem?_cons_succ] at this ⊢
      exact this

lemma map_const_none_eq_replicate {α β : Type} (l : List α) :
    l.map (fun _ => (none : Option β)) = List.replicate l.length none := by
  induction l with
  | nil => rfl
  | cons x xs ih => simp [List.replicate, ih]

/-! ### Closed form of the animation loop -/

lemma animLoop_toNat_zero (ft : ℚ) (hft : 0 < ft) (timer : ℚ)
    (h : ¬ ft ≤ timer) : (⌊timer / ft⌋).toNat = 0 := by
  have h1 : timer / ft < 1 := (div_lt_one hft).mpr (lt_of_not_le h)
  have h2 : ⌊timer / ft⌋ < 1 := Int.floor_lt.mpr (by exact_mod_cast h1)
  omega

lemma animLoop_floor_pos (ft : ℚ) (hft : 0 < ft) (timer : ℚ)
    (h : ft ≤ timer) : 1 ≤ ⌊timer / ft⌋ := by
  have h1 : (1 : ℚ) ≤ timer / ft := (one_le_div hft).mpr h
  rw [Int.le_floor]
  exact_mod_cast h1

lemma animLoop_floor_step (ft : ℚ) (hft : 0 < ft) (timer : ℚ) :
    ⌊(timer - ft) / ft⌋ = ⌊timer / ft⌋ - 1 := by
  have hne : ft ≠ 0 := ne_of_gt hft
  rw [sub_div, div_self hne,
    show (1 : ℚ) = ((1 : ℤ) : ℚ) by norm_num, Int.floor_sub_int]

/-- The while loop of Animation::update computes: subtract frame_time
exactly floor(timer / frame_time) times (when that floor is positive)
and advance current by the same count, modulo the frame count. -/
lemma animLoop_closed (ft : ℚ) (hft : 0 < ft) :
    ∀ (n : ℕ) (timer : ℚ) (current len : ℕ),
      (⌊timer / ft⌋).toNat = n → current < len →
      animLoop ft hft timer current len =
        (timer - n * ft, (current + n) % len) := by
  intro n
  induction n with
  | zero =>
    intro timer current len hn hcl
    have hnle : ¬ ft ≤ timer := by
      intro hle
      have := animLoop_floor_pos ft hft timer hle
      omega
    rw [animLoop, dif_neg hnle]
    simp [Nat.mod_eq_of_lt hcl]
  | succ m ih =>
    intro timer current len hn hcl
    have hle : ft ≤ timer := by
      by_contra hnle
      rw [animLoop_toNat_zero ft hft timer hnle] at hn
      exact Nat.noConfusion hn
    have hlen : 0 < len := by omega
    have hm : (⌊(timer - ft) / ft⌋).toNat = m := by
      rw [animLoop_floor_step ft hft timer]
      have := animLoop_floor_pos ft hft timer hle
      omega
    have hcl2 : (current + 1) % len < len := Nat.mod_lt _ hlen
    rw [animLoop, dif_pos hle, ih (timer - ft) ((current + 1) % len) len hm hcl2]
    simp only [Prod.mk.injEq]
    constructor
    · push_cast
      ring
    · simp only [Nat.mod_add_mod]
      congr 1
      omega

/-! ### Concrete fixtures used by witnesses and counterexamples -/

/-- A concrete trig pair with cos constantly 1 and sin constantly 0; it
agrees with real cos/sin at angle 0, the only angle the concrete
hierarchy fixtures use. -/
def trigId : Trig := ⟨fun _ => 1, fun _ => 0⟩

def sPlain : Sprite := ⟨⟨1, 1⟩, 0, (1, 1, 1, 1), 0, none⟩

def tBounce : Transform := ⟨⟨105, 0⟩, 0, ⟨1, 1⟩⟩

def bBounce : Body := ⟨⟨10, 0⟩, 0, 1/2⟩

/-- One entity at x = 105 with velocity (10,0), damping 0, bounce 1/2. -/
def wBounce : World := (World.new.spawn_sprite_with_body tBounce sPlain (some bBounce)).1

/-! ### C5: animation multi-frame stepping -/

/-- C5. Animation::update adds dt to the timer and then repeatedly
subtracts frame_time = 1/fps while advancing current cyclically, as
long as the timer stays at least frame_time: for non-empty frames and
positive fps it steps exactly floor((timer + dt) * fps) frames in one
call, ending with current = (current + steps) mod frame_count and
emitting frames[current]. -/
theorem animation_update_steps (a : Animation) (dt : ℚ)
    (h1 : a.frames ≠ []) (h2 : 0 < a.fps) (h3 : a.current < a.frames.length) :
    Animation.update a dt =
      ({ a with
          timer := a.timer + dt - (⌊(a.timer + dt) * a.fps⌋).toNat * (1 / a.fps),
          current := (a.current + (⌊(a.timer + dt) * a.fps⌋).toNat) % a.frames.length },
       some (a.frames.getD
         ((a.current + (⌊(a.timer + dt) * a.fps⌋).toNat) % a.frames.length) 0)) := by
  have hcond : ¬ (a.frames.isEmpty ∨ a.fps ≤ 0) := by
    rintro (he | hle)
    · exact h1 (List.isEmpty_iff.mp he)
    · exact absurd h2 (not_lt.mpr hle)
  rw [Animation.update, dif_neg hcond]
  have hdiv : (a.timer + dt) / (1 / a.fps) = (a.timer + dt) * a.fps := by
    rw [div_eq_mul_inv, one_div, inv_inv]
  have hft : 0 < 1 / a.fps := by positivity
  have h := animLoop_closed (1 / a.fps) hft ((⌊(a.timer + dt) * a.fps⌋).toNat)
    (a.timer + dt) a.current a.frames.length (by rw [hdiv]) h3
  simp only [h]

/-- Witness for C5 at the concrete instance of the claim: frames
[0,1,2,3], fps 2, current 0, timer 0, dt 1 ends at current 2 and emits
tile index 2. -/
theorem animation_update_steps_witness :
    ([0, 1, 2, 3] : List ℕ) ≠ [] ∧ (0 : ℚ) < 2 ∧ (0 : ℕ) < 4 ∧
    (Animation.update ⟨[0, 1, 2, 3], 2, 0, 0⟩ 1).1.current = 2 ∧
    (Animation.update ⟨[0, 1, 2, 3], 2, 0, 0⟩ 1).2 = some 2 := by
  have h := animation_update_steps ⟨[0, 1, 2, 3], 2, 0, 0⟩ 1
    (by simp) (by norm_num) (by norm_num)
  refine ⟨by simp, by norm_num, by norm_num, ?_, ?_⟩
  · rw [h]
    norm_num
    decide
  · rw [h]
    norm_num
    decide

/-! ### C1: boundary bounce -/

/-- Evaluation of step_physics on a single-entity store: the one slot
is stepped through stepSlot. -/
lemma step_physics_single (t : Transform) (s : Sprite) (b : Body)
    (dt : ℚ) (bounds : Vec2) :
    (World.step_physics
      { transforms := [some t], sprites := [some s], bodies := [some b],
        parents := [none], world_cache := [none], free := [] } dt bounds) =
      { transforms := [some (stepSlot dt bounds t b).1],
        sprites := [some s],
        bodies := [some (stepSlot dt bounds t b).2],
        parents := [none], world_cache := [none], free := [] } := rfl

/-- C1 (amended). For the entity with bounds (100,100), position
(105,0), velocity (10,0), bounce 1/2 and damping 0, one step_physics
call with any positive dt clamps position.x to 100 and sets velocity.x
to -5: the inward direction at the upper x bound is negative, and its
magnitude is the speed scaled by bounce, independent of the incoming
velocity sign. -/
theorem step_physics_bounce_inward (dt : ℚ) (hdt : 0 < dt) :
    (wBounce.step_physics dt ⟨100, 100⟩).transforms.getD 0 none =
      some ⟨⟨100, 0⟩, 0, ⟨1, 1⟩⟩ ∧
    (wBounce.step_physics dt ⟨100, 100⟩).bodies.getD 0 none =
      some ⟨⟨-5, 0⟩, 0, 1/2⟩ := by
  have hw : wBounce =
      { transforms := [some tBounce], sprites := [some sPlain],
        bodies := [some bBounce], parents := [none],
        world_cache := [none], free := [] } := rfl
  have hxlow : ¬ ((105 : ℚ) + 10 * dt < -100) := by nlinarith
  have hxhigh : (105 : ℚ) + 10 * dt > 100 := by nlinarith
  rw [hw, tBounce, sPlain, bBounce, step_physics_single]
  norm_num [List.getD, stepSlot, clampQ, Vec2.smul, Vec2.add, hxlow, hxhigh]

/-- Counterexample to C1 as stated: at dt = 1 the resulting velocity.x
is -5, not +5 (the inward direction at the +x bound is negative). -/
theorem step_physics_bounce_claim_cex :
    ((wBounce.step_physics 1 ⟨100, 100⟩).bodies.getD 0 none).map
      (fun b => b.velocity.x) = some (-5) ∧
    ¬ ((wBounce.step_physics 1 ⟨100, 100⟩).bodies.getD 0 none).map
      (fun b => b.velocity.x) = some 5 := by
  have hw : wBounce =
      { transforms := [some tBounce], sprites := [some sPlain],
        bodies := [some bBounce], parents := [none],
        world_cache := [none], free := [] } := rfl
  rw [hw, tBounce, sPlain, bBounce, step_physics_single]
  norm_num [List.getD, stepSlot, clampQ, Vec2.smul, Vec2.add]

/-- Witness for C1 (amended) at dt = 2. -/
theorem step_physics_bounce_inward_witness :
    (0 : ℚ) < 2 ∧
    (wBounce.step_physics 2 ⟨100, 100⟩).transforms.getD 0 none =
      some ⟨⟨100, 0⟩, 0, ⟨1, 1⟩⟩ ∧
    (wBounce.step_physics 2 ⟨100, 100⟩).bodies.getD 0 none =
      some ⟨⟨-5, 0⟩, 0, 1/2⟩ :=
  ⟨by norm_num, step_physics_bounce_inward 2 (by norm_num)⟩

/-! ### C8: slot reuse cleanliness -/

/-- C8. When the free list is non-empty and the popped handle is in
range, spawn_sprite_with_body reuses that handle and leaves the slot
with exactly the spawn arguments: parent link absent, cached world
transform absent, body equal to the argument (absent when none),
transform and sprite equal to the arguments; no residue of the prior
occupant remains. -/
theorem spawn_reuse_clean (w : World) (t : Transform) (s : Sprite)
    (b : Option Body) (e : ℕ) (hw : w.wellFormed)
    (hfree : w.free.getLast? = some e) (he : e < w.transforms.length) :
    (w.spawn_sprite_with_body t s b).2 = e ∧
    (w.spawn_sprite_with_body t s b).1.transforms.getD e none = some t ∧
    (w.spawn_sprite_with_body t s b).1.sprites.getD e none = some s ∧
    (w.spawn_sprite_with_body t s b).1.bodies.getD e none = b ∧
    (w.spawn_sprite_with_body t s b).1.parents.getD e none = none ∧
    (w.spawn_sprite_with_body t s b).1.world_cache.getD e none = none := by
  obtain ⟨hs, hb, hp, hc⟩ := hw
  unfold World.spawn_sprite_with_body
  simp only [hfree]
  rw [if_neg (not_le.mpr he)]
  refine ⟨rfl, ?_, ?_, ?_, ?_, ?_⟩
  · exact getD_set_self _ _ _ _ he
  · exact getD_set_self _ _ _ _ (by omega)
  · exact getD_set_self _ _ _ _ (by omega)
  · exact getD_set_self _ _ _ _ (by omega)
  · exact getD_set_self _ _ _ _ (by omega)

/-- A store with one occupied slot full of residue (parent link set,
body set, stale cache) whose slot 0 is on the free list. -/
def wResidue : World :=
  { transforms := [some tBounce], sprites := [some sPlain],
    bodies := [some bBounce], parents := [some 0],
    world_cache := [some tBounce], free := [0] }

/-- Witness for C8: respawning into the recycled slot 0 of wResidue
leaves no residue. -/
theorem spawn_reuse_clean_witness :
    wResidue.wellFormed ∧ wResidue.free.getLast? = some 0 ∧
    0 < wResidue.transforms.length ∧
    ((wResidue.spawn_sprite_with_body ⟨⟨5, 0⟩, 0, ⟨1, 1⟩⟩ sPlain none).2 = 0 ∧
     (wResidue.spawn_sprite_with_body ⟨⟨5, 0⟩, 0, ⟨1, 1⟩⟩ sPlain none).1.transforms.getD 0 none
       = some ⟨⟨5, 0⟩, 0, ⟨1, 1⟩⟩ ∧
     (wResidue.spawn_sprite_with_body ⟨⟨5, 0⟩, 0, ⟨1, 1⟩⟩ sPlain none).1.sprites.getD 0 none
       = some sPlain ∧
     (wResidue.spawn_sprite_with_body ⟨⟨5, 0⟩, 0, ⟨1, 1⟩⟩ sPlain none).1.bodies.getD 0 none
       = none ∧
     (wResidue.spawn_sprite_with_body ⟨⟨5, 0⟩, 0, ⟨1, 1⟩⟩ sPlain none).1.parents.getD 0 none
       = none ∧
     (wResidue.spawn_sprite_with_body ⟨⟨5, 0⟩, 0, ⟨1, 1⟩⟩ sPlain none).1.world_cache.getD 0 none
       = none) :=
  ⟨⟨rfl, rfl, rfl, rfl⟩, rfl, Nat.zero_lt_one,
   spawn_reuse_clean wResidue ⟨⟨5, 0⟩, 0, ⟨1, 1⟩⟩ sPlain none 0
     ⟨rfl, rfl, rfl, rfl⟩ rfl Nat.zero_lt_one⟩

/-! ### C6: frame reassertion by update_animations -/

/-- animStep leaves the store unchanged when the slot has no
transform. -/
lemma animStep_transform_none (dt : ℚ) (acc : World) (n : ℕ)
    (h : acc.transforms.getD n none = none) : animStep dt acc n = acc := by
  unfold animStep
  split
  · rename_i heq _
    rw [h] at heq
    exact Option.noConfusion heq
  · rfl

/-- animStep leaves the store unchanged when the slot has no sprite. -/
lemma animStep_sprite_none (dt : ℚ) (acc : World) (n : ℕ)
    (h : acc.sprites.getD n none = none) : animStep dt acc n = acc := by
  unfold animStep
  split
  · rename_i _ heq
    rw [h] at heq
    exact Option.noConfusion heq
  · rfl

/-- animStep rewrites the slot through animSlot when both components
are present. -/
lemma animStep_both (dt : ℚ) (acc : World) (n : ℕ) (t : Transform) (s : Sprite)
    (h1 : acc.transforms.getD n none = some t)
    (h2 : acc.sprites.getD n none = some s) :
    animStep dt acc n =
      { acc with transforms := acc.transforms.set n (some (animSlot dt t s).1),
                 sprites := acc.sprites.set n (some (animSlot dt t s).2) } := by
  unfold animStep
  rw [h1, h2]

/-- Slot-wise characterization of the update_animations fold: slots not
yet processed are untouched, processed slots with both components hold
the animSlot result, and the other arrays are unchanged. -/
lemma animStep_foldl (dt : ℚ) (w : World) : ∀ n : ℕ,
    ((List.range n).foldl (animStep dt) w).bodies = w.bodies ∧
    ((List.range n).foldl (animStep dt) w).parents = w.parents ∧
    ((List.range n).foldl (animStep dt) w).world_cache = w.world_cache ∧
    ((List.range n).foldl (animStep dt) w).free = w.free ∧
    ((List.range n).foldl (animStep dt) w).transforms.length = w.transforms.length ∧
    ((List.range n).foldl (animStep dt) w).sprites.length = w.sprites.length ∧
    (∀ i, n ≤ i →
      ((List.range n).foldl (animStep dt) w).transforms.getD i none = w.transforms.getD i none ∧
      ((List.range n).foldl (animStep dt) w).sprites.getD i none = w.sprites.getD i none) ∧
    (∀ i t s, i < n →
      w.transforms.getD i none = some t → w.sprites.getD i none = some s →
      ((List.range n).foldl (animStep dt) w).transforms.getD i none = some (animSlot dt t s).1 ∧
      ((List.range n).foldl (animStep dt) w).sprites.getD i none = some (animSlot dt t s).2) := by
  intro n
  induction n with
  | zero =>
    refine ⟨rfl, rfl, rfl, rfl, rfl, rfl, fun i _ => ⟨rfl, rfl⟩, fun i t s hi _ _ => ?_⟩
    omega
  | succ n ih =>
    obtain ⟨hb, hp, hc, hf, hlt, hls, hun, hdone⟩ := ih
    rw [List.range_succ, List.foldl_append, List.foldl_cons, List.foldl_nil]
    have hrt := (hun n (le_refl n)).1
    have hrs := (hun n (le_refl n)).2
    cases hwt : w.transforms.getD n none with
    | none =>
      rw [animStep_transform_none dt _ n (by rw [hrt, hwt])]
      refine ⟨hb, hp, hc, hf, hlt, hls,
        fun i hi => (hun i (by omega)),
        fun i t s hi ht hs => ?_⟩
      rcases Nat.lt_succ_iff_lt_or_eq.mp hi with h | h
      · exact hdone i t s h ht hs
      · subst h; rw [hwt] at ht; exact Option.noConfusion ht
    | some t0 =>
      cases hws : w.sprites.getD n none with
      | none =>
        rw [animStep_sprite_none dt _ n (by rw [hrs, hws])]
        refine ⟨hb, hp, hc, hf, hlt, hls,
          fun i hi => (hun i (by omega)),
          fun i t s hi ht hs => ?_⟩
        rcases Nat.lt_succ_iff_lt_or_eq.mp hi with h | h
        · exact hdone i t s h ht hs
        · subst h; rw [hws] at hs; exact Option.noConfusion hs
      | some s0 =>
        have hnt : n < w.transforms.length := lt_length_of_getD_some _ _ _ hwt
        have hns : n < w.sprites.length := lt_length_of_getD_some _ _ _ hws
        rw [animStep_both dt _ n t0 s0 (by rw [hrt, hwt]) (by rw [hrs, hws])]
        refine ⟨hb, hp, hc, hf, ?_, ?_, ?_, ?_⟩
        · show ((_ : List (Option Transform)).set n _).length = _
          rw [List.length_set]
          exact hlt
        · show ((_ : List (Option Sprite)).set n _).length = _
          rw [List.length_set]
          exact hls
        · intro i hi
          constructor
          · show ((_ : List (Option Transform)).set n _).getD i none = _
            rw [getD_set_ne _ _ _ _ _ (by omega)]
            exact (hun i (by omega)).1
          · show ((_ : List (Option Sprite)).set n _).getD i none = _
            rw [getD_set_ne _ _ _ _ _ (by omega)]
            exact (hun i (by omega)).2
        · intro i t s hi ht hs
          rcases Nat.lt_succ_iff_lt_or_eq.mp hi with h | h
          · constructor
            · show ((_ : List (Option Transform)).set n _).getD i none = _
              rw [getD_set_ne _ _ _ _ _ (by omega)]
              exact (hdone i t s h ht hs).1
            · show ((_ : List (Option Sprite)).set n _).getD i none = _
              rw [getD_set_ne _ _ _ _ _ (by omega)]
              exact (hdone i t s h ht hs).2
          · subst h
            rw [hwt] at ht
            rw [hws] at hs
            cases ht
            cases hs
            constructor
            · exact getD_set_self _ _ _ _ (by rw [hlt]; exact hnt)
            · exact getD_set_self _ _ _ _ (by rw [hls]; exact hns)

/-- C6 (amended). Every slot with Transform and Sprite present whose
Sprite owns an Animation with non-empty frames and positive fps has,
after any update_animations call, its tile_index equal to
frames[current] for the updated animation state: the current frame is
reasserted even when no frame step occurred. -/
theorem update_animations_reasserts (w : World) (dt : ℚ) (i : ℕ)
    (t : Transform) (s : Sprite) (a : Animation)
    (ht : w.transforms.getD i none = some t)
    (hs : w.sprites.getD i none = some s)
    (ha : s.animation = some a)
    (h1 : a.frames ≠ []) (h2 : 0 < a.fps) :
    ∃ s2 a2, (w.update_animations dt).sprites.getD i none = some s2 ∧
      s2.animation = some a2 ∧
      s2.tile_index = a.frames.getD a2.current 0 := by
  have hcond : ¬ (a.frames.isEmpty ∨ a.fps ≤ 0) := by
    rintro (he | hle)
    · exact h1 (List.isEmpty_iff.mp he)
    · exact absurd h2 (not_lt.mpr hle)
  have hi : i < w.transforms.length := lt_length_of_getD_some _ _ _ ht
  have hfold := (animStep_foldl dt w w.transforms.length).2.2.2.2.2.2.2
    i t s hi ht hs
  have hupd : ∃ a2, Animation.update a dt =
      (a2, some (a.frames.getD a2.current 0)) := by
    rw [Animation.update, dif_neg hcond]
    exact ⟨_, rfl⟩
  obtain ⟨a2, hupd⟩ := hupd
  have hslot : (animSlot dt t s).2 =
      { s with animation := some a2,
               tile_index := a.frames.getD a2.current 0 } := by
    rw [animSlot, ha]
    simp only [hupd]
  refine ⟨(animSlot dt t s).2, a2, ?_, ?_, ?_⟩
  · rw [World.update_animations]
    exact hfold.2
  · rw [hslot]
  · rw [hslot]

/-- Evaluation of update_animations on a single-entity store. -/
lemma update_animations_single (t : Transform) (s : Sprite) (dt : ℚ) :
    (World.update_animations
      { transforms := [some t], sprites := [some s], bodies := [none],
        parents := [none], world_cache := [none], free := [] } dt) =
      { transforms := [some (animSlot dt t s).1],
        sprites := [some (animSlot dt t s).2],
        bodies := [none], parents := [none], world_cache := [none],
        free := [] } := rfl

def tIdle : Transform := ⟨⟨0, 0⟩, 0, ⟨1, 1⟩⟩

def aStuck : Animation := ⟨[5], 0, 0, 0⟩

def sStuck : Sprite := ⟨⟨1, 1⟩, 99, (1, 1, 1, 1), 0, some aStuck⟩

/-- One entity whose sprite owns an animation with non-empty frames [5]
but fps = 0, and a stale tile_index 99. -/
def wStuck : World := (World.new.spawn_sprite tIdle sStuck).1

/-- Counterexample to C6 as stated: with non-empty frames but fps = 0,
update_animations leaves tile_index at 99 instead of setting it to
frames[current] = 5, because Animation::update emits no frame when
fps is not positive. -/
theorem update_animations_reasserts_cex :
    ((wStuck.update_animations 1).sprites.getD 0 none).map
      (fun s => s.tile_index) = some 99 ∧
    ¬ ((wStuck.update_animations 1).sprites.getD 0 none).map
      (fun s => s.tile_index) = some ([5].getD aStuck.current 0) := by
  have hw : wStuck =
      { transforms := [some tIdle], sprites := [some sStuck],
        bodies := [none], parents := [none], world_cache := [none],
        free := [] } := rfl
  rw [hw, update_animations_single]
  norm_num [animSlot, Animation.update, List.getD, sStuck, aStuck]

def aIdle : Animation := ⟨[5], 1, 0, 0⟩

def sIdle : Sprite := ⟨⟨1, 1⟩, 99, (1, 1, 1, 1), 0, some aIdle⟩

/-- One entity whose sprite owns an animation with frames [5], fps 1. -/
def wIdle : World := (World.new.spawn_sprite tIdle sIdle).1

/-- Witness for C6 (amended) at dt = 0, where no frame step occurs and
the current frame is still reasserted. -/
theorem update_animations_reasserts_witness :
    wIdle.transforms.getD 0 none = some tIdle ∧
    wIdle.sprites.getD 0 none = some sIdle ∧
    sIdle.animation = some aIdle ∧
    aIdle.frames ≠ [] ∧ (0 : ℚ) < aIdle.fps ∧
    (∃ s2 a2, (wIdle.update_animations 0).sprites.getD 0 none = some s2 ∧
      s2.animation = some a2 ∧
      s2.tile_index = aIdle.frames.getD a2.current 0) :=
  ⟨rfl, rfl, rfl, by simp [aIdle], by norm_num [aIdle],
   update_animations_reasserts wIdle 0 0 tIdle sIdle aIdle rfl rfl rfl
     (by simp [aIdle]) (by norm_num [aIdle])⟩

/-! ### compute_world core lemmas -/

/-- compute_world never changes the component arrays, the parent links
or the free list, and preserves the cache length. -/
lemma computeWorldF_core (trig : Trig) : ∀ (fuel : ℕ) (w : World) (i : ℕ),
    (computeWorldF trig fuel w i).1.transforms = w.transforms ∧
    (computeWorldF trig fuel w i).1.sprites = w.sprites ∧
    (computeWorldF trig fuel w i).1.bodies = w.bodies ∧
    (computeWorldF trig fuel w i).1.parents = w.parents ∧
    (computeWorldF trig fuel w i).1.free = w.free ∧
    (computeWorldF trig fuel w i).1.world_cache.length = w.world_cache.length := by
  intro fuel
  induction fuel with
  | zero => intro w i; exact ⟨rfl, rfl, rfl, rfl, rfl, rfl⟩
  | succ n ih =>
    intro w i
    simp only [computeWorldF]
    split
    · exact ⟨rfl, rfl, rfl, rfl, rfl, rfl⟩
    · split
      · exact ⟨rfl, rfl, rfl, rfl, rfl, rfl⟩
      · split
        · exact ⟨rfl, rfl, rfl, rfl, rfl, rfl⟩
        · split
          · simp [cacheStore]
          · split
            · simp [cacheStore]
            · rename_i localT parent hpar hne
              rcases hrec : computeWorldF trig n w parent with ⟨w1, r⟩
              have hcore := ih w parent
              rw [hrec] at hcore
              obtain ⟨c1, c2, c3, c4, c5, c6⟩ := hcore
              cases r with
              | some pw =>
                simp only [cacheStore, List.length_set]
                exact ⟨c1, c2, c3, c4, c5, c6⟩
              | none =>
                simp only [cacheStore, List.length_set]
                exact ⟨c1, c2, c3, c4, c5, c6⟩

/-- compute_world never removes or overwrites an existing cache entry:
a cached value survives any further resolution. -/
lemma computeWorldF_cache_mono (trig : Trig) :
    ∀ (fuel : ℕ) (w : World) (i j : ℕ) (c : Transform),
      w.world_cache.getD j none = some c →
      (computeWorldF trig fuel w i).1.world_cache.getD j none = some c := by
  intro fuel
  induction fuel with
  | zero => intro w i j c h; exact h
  | succ n ih =>
    intro w i j c h
    simp only [computeWorldF]
    split
    · exact h
    · split
      · exact h
      · split
        · exact h
        · rename_i localT htr
          have hmiss : w.world_cache.getD i none = none := by assumption
          have hji : j ≠ i := by
            intro hc
            rw [hc, hmiss] at h
            exact Option.noConfusion h
          split
          · simp only [cacheStore]
            rw [getD_set_ne _ _ _ _ _ (Ne.symm hji)]
            exact h
          · split
            · simp only [cacheStore]
              rw [getD_set_ne _ _ _ _ _ (Ne.symm hji)]
              exact h
            · rename_i parent hpar hne
              rcases hrec : computeWorldF trig n w parent with ⟨w1, r⟩
              have hmono := ih w parent j c h
              rw [hrec] at hmono
              cases r with
              | some pw =>
                simp only [cacheStore]
                rw [getD_set_ne _ _ _ _ _ (Ne.symm hji)]
                exact hmono
              | none =>
                simp only [cacheStore]
                rw [getD_set_ne _ _ _ _ _ (Ne.symm hji)]
                exact hmono

/-- compute_world writes the cache only at indices whose Transform is
present: slots without a Transform stay uncached. -/
lemma computeWorldF_dead (trig : Trig) :
    ∀ (fuel : ℕ) (w : World) (i : ℕ),
      (∀ k, w.transforms.getD k none = none → w.world_cache.getD k none = none) →
      ∀ k, w.transforms.getD k none = none →
      (computeWorldF trig fuel w i).1.world_cache.getD k none = none := by
  intro fuel
  induction fuel with
  | zero => intro w i hinv k hk; exact hinv k hk
  | succ n ih =>
    intro w i hinv k hk
    simp only [computeWorldF]
    split
    · exact hinv k hk
    · split
      · exact hinv k hk
      · split
        · exact hinv k hk
        · rename_i localT htr
          have hki : k ≠ i := by
            intro hc
            rw [hc, htr] at hk
            exact Option.noConfusion hk
          split
          · simp only [cacheStore]
            rw [getD_set_ne _ _ _ _ _ (Ne.symm hki)]
            exact hinv k hk
          · split
            · simp only [cacheStore]
              rw [getD_set_ne _ _ _ _ _ (Ne.symm hki)]
              exact hinv k hk
            · rename_i parent hpar hne
              rcases hrec : computeWorldF trig n w parent with ⟨w1, r⟩
              have hdead := ih w parent hinv k hk
              rw [hrec] at hdead
              cases r with
              | some pw =>
                simp only [cacheStore]
                rw [getD_set_ne _ _ _ _ _ (Ne.symm hki)]
                exact hdead
              | none =>
                simp only [cacheStore]
                rw [getD_set_ne _ _ _ _ _ (Ne.symm hki)]
                exact hdead

/-- A top-level compute_world call with positive fuel on an index whose
Transform is present leaves that index cached. -/
lemma computeWorldF_caches (trig : Trig) (fuel : ℕ) (w : World) (i : ℕ)
    (t : Transform) (hlen : w.world_cache.length = w.transforms.length)
    (ht : w.transforms.getD i none = some t) :
    ((computeWorldF trig (fuel + 1) w i).1.world_cache.getD i none).isSome := by
  have hi : i < w.transforms.length := lt_length_of_getD_some _ _ _ ht
  have hic : i < w.world_cache.length := by rw [hlen]; exact hi
  simp only [computeWorldF]
  split
  · omega
  · split
    · rename_i c hc
      rw [hc]
      rfl
    · split
      · rename_i htr
        rw [htr] at ht
        exact Option.noConfusion ht
      · split
        · simp only [cacheStore]
          rw [getD_set_self _ _ _ _ hic]
          rfl
        · split
          · simp only [cacheStore]
            rw [getD_set_self _ _ _ _ hic]
            rfl
          · rename_i parent hpar hne
            rcases hrec : computeWorldF trig fuel w parent with ⟨w1, r⟩
            have hcore := computeWorldF_core trig fuel w parent
            rw [hrec] at hcore
            have hic1 : i < w1.world_cache.length := by
              rw [hcore.2.2.2.2.2]
              exact hic
            cases r with
            | some pw =>
              simp only [cacheStore]
              rw [getD_set_self _ _ _ _ hic1]
              rfl
            | none =>
              simp only [cacheStore]
              rw [getD_set_self _ _ _ _ hic1]
              rfl

/-! ### build_world_transforms lemmas -/

/-- The resolution fold never changes the component arrays, parent
links or free list, and preserves the cache length. -/
lemma resolveStep_foldl_core (trig : Trig) : ∀ (l : List ℕ) (w : World),
    ((l.foldl (resolveStep trig) w).transforms = w.transforms ∧
     (l.foldl (resolveStep trig) w).sprites = w.sprites ∧
     (l.foldl (resolveStep trig) w).bodies = w.bodies ∧
     (l.foldl (resolveStep trig) w).parents = w.parents ∧
     (l.foldl (resolveStep trig) w).free = w.free ∧
     (l.foldl (resolveStep trig) w).world_cache.length = w.world_cache.length) := by
  intro l
  induction l with
  | nil => intro w; exact ⟨rfl, rfl, rfl, rfl, rfl, rfl⟩
  | cons x xs ih =>
    intro w
    rw [List.foldl_cons]
    have h1 := computeWorldF_core trig (w.transforms.length + 1) w x
    have h2 := ih (resolveStep trig w x)
    unfold resolveStep at h2 ⊢
    obtain ⟨a1, a2, a3, a4, a5, a6⟩ := h1
    obtain ⟨b1, b2, b3, b4, b5, b6⟩ := h2
    exact ⟨b1.trans a1, b2.trans a2, b3.trans a3, b4.trans a4, b5.trans a5,
      b6.trans a6⟩

/-- The resolution fold leaves Transform-less slots uncached, provided
they start uncached. -/
lemma resolveStep_foldl_dead (trig : Trig) : ∀ (l : List ℕ) (w : World),
    (∀ k, w.transforms.getD k none = none → w.world_cache.getD k none = none) →
    ∀ k, w.transforms.getD k none = none →
    (l.foldl (resolveStep trig) w).world_cache.getD k none = none := by
  intro l
  induction l with
  | nil => intro w hinv k hk; exact hinv k hk
  | cons x xs ih =>
    intro w hinv k hk
    rw [List.foldl_cons]
    have hcore := computeWorldF_core trig (w.transforms.length + 1) w x
    apply ih
    · intro k2 hk2
      unfold resolveStep at hk2 ⊢
      rw [hcore.1] at hk2
      exact computeWorldF_dead trig _ w x hinv k2 hk2
    · unfold resolveStep
      rw [hcore.1]
      exact hk

/-- A cache entry present before the resolution fold survives it with
the same value. -/
lemma resolveStep_foldl_mono (trig : Trig) : ∀ (l : List ℕ) (w : World)
    (j : ℕ) (c : Transform),
    w.world_cache.getD j none = some c →
    (l.foldl (resolveStep trig) w).world_cache.getD j none = some c := by
  intro l
  induction l with
  | nil => intro w j c h; exact h
  | cons x xs ih =>
    intro w j c h
    rw [List.foldl_cons]
    apply ih
    unfold resolveStep
    exact computeWorldF_cache_mono trig _ w x j c h

/-- Every index in the fold list whose Transform is present ends up
cached. -/
lemma resolveStep_foldl_caches (trig : Trig) : ∀ (l : List ℕ) (w : World),
    w.world_cache.length = w.transforms.length →
    ∀ i t, i ∈ l → w.transforms.getD i none = some t →
    ((l.foldl (resolveStep trig) w).world_cache.getD i none).isSome := by
  intro l
  induction l with
  | nil => intro w _ i t hmem _; exact absurd hmem (List.not_mem_nil i)
  | cons x xs ih =>
    intro w hlen i t hmem ht
    rw [List.foldl_cons]
    have hcore := computeWorldF_core trig (w.transforms.length + 1) w x
    rcases List.mem_cons.mp hmem with h | h
    · subst h
      have hc := computeWorldF_caches trig w.transforms.length w i t hlen ht
      obtain ⟨c, hc2⟩ := Option.isSome_iff_exists.mp hc
      have := resolveStep_foldl_mono trig xs (resolveStep trig w i) i c
        (by unfold resolveStep; exact hc2)
      rw [this]
      rfl
    · apply ih (resolveStep trig w x)
      · unfold resolveStep
        rw [hcore.2.2.2.2.2, hcore.1, hlen]
      · exact h
      · unfold resolveStep
        rw [hcore.1]
        exact ht

/-- After build_world_transforms, an in-range index is cached exactly
when its Transform is present. -/
lemma build_cache_iff (trig : Trig) (w : World) (hw : w.wellFormed) (i : ℕ)
    (hi : i < w.transforms.length) :
    ((w.build_world_transforms trig).world_cache.getD i none).isSome ↔
      (w.transforms.getD i none).isSome := by
  obtain ⟨hs, hb, hp, hc⟩ := hw
  rw [World.build_world_transforms]
  constructor
  · intro hsome
    by_contra hnone
    have ht : w.transforms.getD i none = none := by
      cases hko : w.transforms.getD i none with
      | none => rfl
      | some t => rw [hko] at hnone; exact absurd rfl hnone
    have := resolveStep_foldl_dead trig (List.range w.transforms.length)
      { w with world_cache := w.world_cache.map (fun _ => none) }
      (fun k _ => getD_map_const_none _ _) i ht
    rw [this] at hsome
    exact Bool.noConfusion hsome
  · intro hsome
    obtain ⟨t, ht⟩ := Option.isSome_iff_exists.mp hsome
    exact resolveStep_foldl_caches trig (List.range w.transforms.length)
      { w with world_cache := w.world_cache.map (fun _ => none) }
      (by simp only [List.length_map]; exact hc)
      i t (List.mem_range.mpr hi) ht

/-- build_world_transforms changes only the cache, and preserves its
length. -/
lemma build_core (trig : Trig) (w : World) :
    (w.build_world_transforms trig).transforms = w.transforms ∧
    (w.build_world_transforms trig).sprites = w.sprites ∧
    (w.build_world_transforms trig).bodies = w.bodies ∧
    (w.build_world_transforms trig).parents = w.parents ∧
    (w.build_world_transforms trig).free = w.free ∧
    (w.build_world_transforms trig).world_cache.length = w.world_cache.length := by
  rw [World.build_world_transforms]
  have h := resolveStep_foldl_core trig (List.range w.transforms.length)
    { w with world_cache := w.world_cache.map (fun _ => none) }
  obtain ⟨a1, a2, a3, a4, a5, a6⟩ := h
  refine ⟨a1, a2, a3, a4, a5, ?_⟩
  rw [a6]
  exact List.length_map _ _

/-! ### C4: render-set completeness -/

/-- Mapping the first component over a filterMap whose function tags
its input index recovers the filter of the defined set. -/
lemma filterMap_fst {α : Type} (g : ℕ → Option (ℕ × α))
    (hg : ∀ i p, g i = some p → p.1 = i) :
    ∀ l : List ℕ,
      (l.filterMap g).map (fun e => e.1) = l.filter (fun i => (g i).isSome) := by
  intro l
  induction l with
  | nil => rfl
  | cons x xs ih =>
    rw [List.filterMap_cons, List.filter_cons]
    cases hgx : g x with
    | none => simp only [hgx, Option.isSome_none, Bool.false_eq_true, if_false]; exact ih
    | some p =>
      simp only [hgx, Option.isSome_some, if_true, List.map_cons, ih]
      rw [hg x p hgx]

/-- C4. A for_each_sprite_world call visits, in ascending index order,
exactly the indices whose Transform and Sprite are both present: one
visit per such index and none for any other slot. After the internal
build_world_transforms pass, a slot is cached exactly when its
Transform is present, so the visit filter on cache-and-sprite equals
the filter on transform-and-sprite. -/
theorem for_each_sprite_world_visits (trig : Trig) (w : World)
    (hw : w.wellFormed) :
    ((w.for_each_sprite_world trig).2).map (fun e => e.1) =
      (List.range w.transforms.length).filter
        (fun i => (w.transforms.getD i none).isSome &&
                  (w.sprites.getD i none).isSome) := by
  obtain hcore := build_core trig w
  have h2 : (w.for_each_sprite_world trig).2 =
      (List.range (w.build_world_transforms trig).transforms.length).filterMap
        (fun index =>
          match (w.build_world_transforms trig).world_cache.getD index none,
                (w.build_world_transforms trig).sprites.getD index none with
          | some worldT, some s => some (index, worldT, s)
          | _, _ => none) := rfl
  have hg : ∀ i p,
      (match (w.build_world_transforms trig).world_cache.getD i none,
             (w.build_world_transforms trig).sprites.getD i none with
       | some worldT, some s => some (i, worldT, s)
       | _, _ => none) = some p → p.1 = i := by
    intro i p h
    cases hcc : (w.build_world_transforms trig).world_cache.getD i none with
    | none => rw [hcc] at h; exact Option.noConfusion h
    | some c =>
      cases hss : (w.build_world_transforms trig).sprites.getD i none with
      | none => rw [hcc, hss] at h; exact Option.noConfusion h
      | some s =>
        rw [hcc, hss] at h
        cases h
        rfl
  rw [h2, filterMap_fst _ hg, hcore.1]
  apply List.filter_congr
  intro i hmem
  have hi : i < w.transforms.length := List.mem_range.mp hmem
  have hiff := build_cache_iff trig w hw i hi
  cases hcc : (w.build_world_transforms trig).world_cache.getD i none with
  | none =>
    have : ¬ (w.transforms.getD i none).isSome := by
      intro hcontra
      have := hiff.mpr hcontra
      rw [hcc] at this
      exact Bool.noConfusion this
    simp only [hcc]
    cases hto : w.transforms.getD i none with
    | none => rfl
    | some t => rw [hto] at this; exact absurd rfl this
  | some c =>
    have hts : (w.transforms.getD i none).isSome := by
      apply hiff.mp
      rw [hcc]
      rfl
    cases hss : (w.build_world_transforms trig).sprites.getD i none with
    | none =>
      rw [hcore.2.1] at hss
      simp only [hss, hts, Option.isSome_none, Bool.and_false]
    | some s =>
      rw [hcore.2.1] at hss
      simp only [hss, hts, Option.isSome_some, Bool.and_true]

/-- Witness for C4 on a one-entity store. -/
theorem for_each_sprite_world_visits_witness :
    wIdle.wellFormed ∧
    ((wIdle.for_each_sprite_world trigId).2).map (fun e => e.1) =
      (List.range wIdle.transforms.length).filter
        (fun i => (wIdle.transforms.getD i none).isSome &&
                  (wIdle.sprites.getD i none).isSome) :=
  ⟨⟨rfl, rfl, rfl, rfl⟩,
   for_each_sprite_world_visits trigId wIdle ⟨rfl, rfl, rfl, rfl⟩⟩

/-! ### C7: memoization idempotence -/

/-- C7. Running hierarchy resolution twice with no mutation in between
yields the same store, hence identical world-transform caches: the
second build_world_transforms pass reproduces the first exactly. -/
theorem build_world_transforms_idempotent (trig : Trig) (w : World) :
    (w.build_world_transforms trig).build_world_transforms trig =
      w.build_world_transforms trig := by
  obtain ⟨h1, h2, h3, h4, h5, h6⟩ := build_core trig w
  have hstart :
      { w.build_world_transforms trig with
          world_cache :=
            (w.build_world_transforms trig).world_cache.map (fun _ => none) } =
      { w with world_cache := w.world_cache.map (fun _ => none) } := by
    apply World.ext
    · exact h1
    · exact h2
    · exact h3
    · exact h4
    · show (w.build_world_transforms trig).world_cache.map (fun _ => none) =
        w.world_cache.map (fun _ => none)
      rw [map_const_none_eq_replicate, map_const_none_eq_replicate, h6]
    · exact h5
  conv_lhs => rw [World.build_world_transforms]
  rw [hstart]
  rfl

/-! ### C2: hierarchy composition formula -/

/-- C2. When an uncached in-range index has a Transform, a parent link
to a different index, and the recursive resolution of that parent
yields a parent world transform, the resolved world transform composes
parent and local exactly as: position = parent.position +
rotate(local.position * parent.scale, parent.rotation), rotation =
parent.rotation + local.rotation, scale = parent.scale * local.scale
component-wise, with rotate the standard cos/sin 2D rotation. -/
theorem compute_world_combines (trig : Trig) (w : World) (fuel i p : ℕ)
    (localT pw : Transform)
    (hi : i < w.transforms.length)
    (hc : w.world_cache.getD i none = none)
    (ht : w.transforms.getD i none = some localT)
    (hp : w.parents.getD i none = some p)
    (hne : p ≠ i)
    (hpar : (computeWorldF trig fuel w p).2 = some pw) :
    (computeWorldF trig (fuel + 1) w i).2 =
      some { position := ⟨pw.position.x +
               (localT.position.x * pw.scale.x * trig.cos pw.rotation -
                localT.position.y * pw.scale.y * trig.sin pw.rotation),
             pw.position.y +
               (localT.position.x * pw.scale.x * trig.sin pw.rotation +
                localT.position.y * pw.scale.y * trig.cos pw.rotation)⟩,
             rotation := pw.rotation + localT.rotation,
             scale := ⟨pw.scale.x * localT.scale.x,
                       pw.scale.y * localT.scale.y⟩ } := by
  simp only [computeWorldF]
  rw [if_neg (not_le.mpr hi)]
  simp only [hc, ht, hp]
  rw [if_neg hne]
  rcases hrec : computeWorldF trig fuel w p with ⟨w1, r⟩
  rw [hrec] at hpar
  simp only at hpar
  subst hpar
  rfl

/-- The parent position (10,0), rotation 0, scale 1 of the concrete
hierarchy instance. -/
def tParent : Transform := ⟨⟨10, 0⟩, 0, ⟨1, 1⟩⟩

/-- The child local position (5,0) of the concrete hierarchy
instance. -/
def tChild : Transform := ⟨⟨5, 0⟩, 0, ⟨1, 1⟩⟩

/-- Two entities: parent at index 0, child at index 1 with parent link
to 0. -/
def wHier : World :=
  (((World.new.spawn_sprite tParent sPlain).1.spawn_sprite tChild sPlain).1).set_parent 1 0

/-- Witness for C2: the child of wHier resolves to world position
(15,0). -/
theorem compute_world_combines_witness :
    (1 < wHier.transforms.length ∧
     wHier.world_cache.getD 1 none = none ∧
     wHier.transforms.getD 1 none = some tChild ∧
     wHier.parents.getD 1 none = some 0 ∧
     (0 : ℕ) ≠ 1 ∧
     (computeWorldF trigId 1 wHier 0).2 = some tParent) ∧
    (computeWorldF trigId 2 wHier 1).2 = some ⟨⟨15, 0⟩, 0, ⟨1, 1⟩⟩ := by
  constructor
  · exact ⟨by decide, rfl, rfl, rfl, by decide, rfl⟩
  · have h := compute_world_combines trigId wHier 1 1 0 tChild tParent
      (by decide) rfl rfl rfl (by decide) rfl
    rw [h]
    simp only [Option.some.injEq, Transform.mk.injEq, Vec2.mk.injEq,
      trigId, tChild, tParent]
    norm_num

/-! ### C3: root fallback -/

/-- compute_world yields no value at an out-of-range index, and at an
uncached index without a Transform. -/
lemma computeWorldF_none (trig : Trig) : ∀ (fuel : ℕ) (w : World) (p : ℕ),
    (w.transforms.length ≤ p ∨
      (w.transforms.getD p none = none ∧ w.world_cache.getD p none = none)) →
    computeWorldF trig fuel w p = (w, none) := by
  intro fuel w p h
  cases fuel with
  | zero => rfl
  | succ n =>
    simp only [computeWorldF]
    by_cases hlen : w.transforms.length ≤ p
    · rw [if_pos hlen]
    · rw [if_neg hlen]
      rcases h with h | ⟨h1, h2⟩
      · exact absurd h hlen
      · simp only [h1, h2]

/-- C3. An in-range uncached index with a Transform whose parent link
points to itself, or to an index that fails to resolve (out of range,
or uncached with no Transform), resolves to exactly its local
transform. -/
theorem compute_world_root_fallback (trig : Trig) (w : World)
    (fuel i p : ℕ) (localT : Transform)
    (hi : i < w.transforms.length)
    (hc : w.world_cache.getD i none = none)
    (ht : w.transforms.getD i none = some localT)
    (hp : w.parents.getD i none = some p)
    (hfail : p = i ∨ w.transforms.length ≤ p ∨
      (w.transforms.getD p none = none ∧ w.world_cache.getD p none = none)) :
    (computeWorldF trig (fuel + 1) w i).2 = some localT := by
  simp only [computeWorldF]
  rw [if_neg (not_le.mpr hi)]
  simp only [hc, ht, hp]
  rcases hfail with h | h
  · rw [if_pos h]
  · have hne : p ≠ i := by
      rcases h with h | ⟨h1, _⟩
      · omega
      · intro hcontra
        rw [hcontra, ht] at h1
        exact Option.noConfusion h1
    rw [if_neg hne, computeWorldF_none trig fuel w p h]

/-- One entity at index 0 whose parent link points to itself. -/
def wSelf : World := ((World.new.spawn_sprite tChild sPlain).1).set_parent 0 0

/-- Witness for C3: the self-parented entity resolves to its own local
transform. -/
theorem compute_world_root_fallback_witness :
    (0 < wSelf.transforms.length ∧
     wSelf.world_cache.getD 0 none = none ∧
     wSelf.transforms.getD 0 none = some tChild ∧
     wSelf.parents.getD 0 none = some 0) ∧
    (computeWorldF trigId 1 wSelf 0).2 = some tChild :=
  ⟨⟨by decide, rfl, rfl, rfl⟩,
   compute_world_root_fallback trigId wSelf 0 0 0 tChild
     (by decide) rfl rfl rfl (Or.inl rfl)⟩

/-! ### C9: resolution termination on acyclic hierarchies -/

/-- One unfolding step of compute_world: two fuel values give the same
result provided the recursive parent call does. -/
lemma computeWorldF_succ_congr (trig : Trig) (w : World) (i m k : ℕ)
    (hrec : ∀ p, i < w.transforms.length → w.parents.getD i none = some p →
      p ≠ i → computeWorldF trig m w p = computeWorldF trig k w p) :
    computeWorldF trig (m + 1) w i = computeWorldF trig (k + 1) w i := by
  simp only [computeWorldF]
  by_cases hlen : w.transforms.length ≤ i
  · rw [if_pos hlen, if_pos hlen]
  · rw [if_neg hlen, if_neg hlen]
    cases hc : w.world_cache.getD i none with
    | some c => simp only [hc]
    | none =>
      simp only [hc]
      cases ht : w.transforms.getD i none with
      | none => simp only [ht]
      | some localT =>
        simp only [ht]
        cases hp : w.parents.getD i none with
        | none => simp only [hp]
        | some p =>
          simp only [hp]
          by_cases hpe : p = i
          · rw [if_pos hpe, if_pos hpe]
          · rw [if_neg hpe, if_neg hpe,
              hrec p (by omega) hp hpe]

/-- Bounded-rank induction for fuel stabilization. -/
lemma computeWorldF_fuel_stable_aux (trig : Trig) (w : World) (rank : ℕ → ℕ)
    (hrank : ∀ j, j < w.transforms.length → ∀ p,
      w.parents.getD j none = some p → p ≠ j → rank p < rank j) :
    ∀ (n i : ℕ), rank i ≤ n → ∀ (fuel : ℕ), rank i + 1 ≤ fuel →
    computeWorldF trig fuel w i = computeWorldF trig (rank i + 1) w i := by
  intro n
  induction n with
  | zero =>
    intro i hr fuel hf
    obtain ⟨m, rfl⟩ : ∃ m, fuel = m + 1 := ⟨fuel - 1, by omega⟩
    have hr0 : rank i = 0 := by omega
    rw [hr0]
    exact computeWorldF_succ_congr trig w i m 0
      (fun p hlt hp hne => absurd (hrank i hlt p hp hne) (by omega))
  | succ n ih =>
    intro i hr fuel hf
    obtain ⟨m, rfl⟩ : ∃ m, fuel = m + 1 := ⟨fuel - 1, by omega⟩
    exact computeWorldF_succ_congr trig w i m (rank i)
      (fun p hlt hp hne => by
        have h1 : rank p < rank i := hrank i hlt p hp hne
        have e1 := ih p (by omega) m (by omega)
        have e2 := ih p (by omega) (rank i) (by omega)
        rw [e1, e2])

/-- C9. When the parent-link relation (self-references discarded)
admits a rank strictly decreasing from child to parent, which is
exactly the acyclicity of following parent links, resolution
terminates: the fuel-indexed compute_world stabilizes once the fuel
exceeds the rank of the index, so every compute_world call made by
build_world_transforms returns the recursion's fixed result instead of
recursing without bound. Only the direct self-parent case is guarded in
the code, so this rank hypothesis on the non-self links is what makes
the recursion well-founded. -/
theorem compute_world_terminates (trig : Trig) (w : World) (rank : ℕ → ℕ)
    (hrank : ∀ j, j < w.transforms.length → ∀ p,
      w.parents.getD j none = some p → p ≠ j → rank p < rank j)
    (i fuel : ℕ) (hfuel : rank i + 1 ≤ fuel) :
    computeWorldF trig fuel w i = computeWorldF trig (rank i + 1) w i :=
  computeWorldF_fuel_stable_aux trig w rank hrank (rank i) i (le_refl _) fuel hfuel

/-- Witness for C9: the two-entity chain of wHier, ranked by the
identity, resolves the child identically with fuel 5 and fuel 2. -/
theorem compute_world_terminates_witness :
    (∀ j, j < wHier.transforms.length → ∀ p,
      wHier.parents.getD j none = some p → p ≠ j → p < j) ∧
    computeWorldF trigId 5 wHier 1 = computeWorldF trigId 2 wHier 1 := by
  have hr : ∀ j, j < wHier.transforms.length → ∀ p,
      wHier.parents.getD j none = some p → p ≠ j → p < j := by
    intro j hj p hp hne
    have hl : wHier.transforms.length = 2 := rfl
    rw [hl] at hj
    have hpar : wHier.parents = [none, some 0] := rfl
    rw [hpar] at hp
    interval_cases j
    · simp [List.getD] at hp
    · have hp0 : 0 = p := by simpa [List.getD] using hp
      omega
  exact ⟨hr, compute_world_terminates trigId wHier (fun n => n) hr 1 5
    (by norm_num)⟩

/-! ### C10: parallel-array length invariant -/

lemma push_new_wf (w : World) (t : Transform) (s : Sprite) (b : Option Body)
    (h : w.wellFormed) : (w.push_new t s b).1.wellFormed := by
  obtain ⟨h1, h2, h3, h4⟩ := h
  refine ⟨?_, ?_, ?_, ?_⟩ <;>
    simp [World.push_new, h1, h2, h3, h4]

lemma spawn_with_body_wf (w : World) (t : Transform) (s : Sprite)
    (b : Option Body) (h : w.wellFormed) :
    (w.spawn_sprite_with_body t s b).1.wellFormed := by
  rw [World.spawn_sprite_with_body]
  cases hl : w.free.getLast? with
  | none => exact push_new_wf w t s b h
  | some e =>
    dsimp only
    split
    · exact push_new_wf _ t s b h
    · obtain ⟨h1, h2, h3, h4⟩ := h
      refine ⟨?_, ?_, ?_, ?_⟩ <;> simp only [List.length_set] <;> assumption

lemma set_parent_wf (w : World) (c p : ℕ) (h : w.wellFormed) :
    (w.set_parent c p).wellFormed := by
  rw [World.set_parent]
  split
  · exact h
  · obtain ⟨h1, h2, h3, h4⟩ := h
    exact ⟨h1, h2, by simp only [List.length_set]; exact h3,
           by simp only [List.length_set]; exact h4⟩

lemma mutate_transform_wf (w : World) (e : ℕ) (t : Transform)
    (h : w.wellFormed) : (w.mutate_transform e t).wellFormed := by
  rw [World.mutate_transform]
  split
  · obtain ⟨h1, h2, h3, h4⟩ := h
    exact ⟨by simp only [List.length_set]; exact h1,
           by simp only [List.length_set]; exact h2,
           by simp only [List.length_set]; exact h3,
           by simp only [List.length_set]; exact h4⟩
  · exact h

lemma mutate_sprite_wf (w : World) (e : ℕ) (s : Sprite)
    (h : w.wellFormed) : (w.mutate_sprite e s).wellFormed := by
  rw [World.mutate_sprite]
  split
  · obtain ⟨h1, h2, h3, h4⟩ := h
    exact ⟨by simp only [List.length_set]; exact h1, h2, h3, h4⟩
  · exact h

lemma physStep_wf (dt : ℚ) (bounds : Vec2) (acc : World) (i : ℕ)
    (h : acc.wellFormed) : (physStep dt bounds acc i).wellFormed := by
  rw [physStep]
  split
  · obtain ⟨h1, h2, h3, h4⟩ := h
    exact ⟨by simp only [List.length_set]; exact h1,
           by simp only [List.length_set]; exact h2,
           by simp only [List.length_set]; exact h3,
           by simp only [List.length_set]; exact h4⟩
  · exact h

lemma animStep_wf (dt : ℚ) (acc : World) (i : ℕ)
    (h : acc.wellFormed) : (animStep dt acc i).wellFormed := by
  rw [animStep]
  split
  · obtain ⟨h1, h2, h3, h4⟩ := h
    exact ⟨by simp only [List.length_set]; exact h1,
           by simp only [List.length_set]; exact h2,
           by simp only [List.length_set]; exact h3,
           by simp only [List.length_set]; exact h4⟩
  · exact h

lemma foldl_wf {α : Type} (f : World → α → World)
    (hf : ∀ w x, w.wellFormed → (f w x).wellFormed) :
    ∀ (l : List α) (w : World), w.wellFormed → (l.foldl f w).wellFormed := by
  intro l
  induction l with
  | nil => intro w h; exact h
  | cons x xs ih =>
    intro w h
    rw [List.foldl_cons]
    exact ih (f w x) (hf w x h)

lemma build_wf (trig : Trig) (w : World) (h : w.wellFormed) :
    (w.build_world_transforms trig).wellFormed := by
  obtain ⟨h1, h2, h3, h4⟩ := h
  have core := build_core trig w
  refine ⟨?_, ?_, ?_, ?_⟩
  · rw [core.2.1, core.1]; exact h1
  · rw [core.2.2.1, core.1]; exact h2
  · rw [core.2.2.2.1, core.1]; exact h3
  · rw [core.2.2.2.2.2, core.1]; exact h4

/-- C10. Every store reachable from World::new through the public
operations keeps its five parallel slot arrays at equal length, so each
per-index access the per-frame loops perform under the bound
index < transforms.length stays in range in every array. -/
theorem reachable_wellFormed (w : World) (h : Reachable w) : w.wellFormed := by
  induction h with
  | new => exact ⟨rfl, rfl, rfl, rfl⟩
  | spawn_sprite w t s _ ih => exact spawn_with_body_wf w t s none ih
  | spawn_sprite_with_body w t s b _ ih => exact spawn_with_body_wf w t s b ih
  | set_parent w c p _ ih => exact set_parent_wf w c p ih
  | mutate_transform w e t _ ih => exact mutate_transform_wf w e t ih
  | mutate_sprite w e s _ ih => exact mutate_sprite_wf w e s ih
  | step_physics w dt bounds _ ih =>
    exact foldl_wf (physStep dt bounds) (physStep_wf dt bounds) _ w ih
  | update_animations w dt _ ih =>
    exact foldl_wf (animStep dt) (animStep_wf dt) _ w ih
  | for_each_sprite_world trig w _ ih => exact build_wf trig w ih

/-- Witness for C10 on a store reached by a spawn followed by a physics
step. -/
theorem reachable_wellFormed_witness :
    ((World.new.spawn_sprite_with_body tBounce sPlain (some bBounce)).1.step_physics
      1 ⟨100, 100⟩).wellFormed :=
  reachable_wellFormed _
    (Reachable.step_physics _ 1 ⟨100, 100⟩
      (Reachable.spawn_sprite_with_body World.new tBounce sPlain (some bBounce)
        Reachable.new))
